import Mathlib

/-!
Verification development for the Latin scansion pipeline
(`autoscan.py`, `scan_latin.py`, `scan_latin_class.py`).

Words, syllables and sentences are modelled as `List Char`,
`List (List Char)` and so on, mirroring Python strings and lists.
Python loops that mutate lists in place are modelled as pure
state-passing recursions over the original index ranges; loops whose
index advances by a variable amount carry an explicit fuel argument
whose exhaustion case returns the same value as the normal loop exit,
so that fuel at least as large as the iteration count is neutral.
Python code paths that raise an exception not caught by the function
itself are modelled with `Option`, `none` standing for the raised
exception.
-/

/-- Alphabet table `vowels` shared by all three source files. -/
def vowelsL : List Char := ['a', 'e', 'i', 'o', 'u']

/-- Alphabet table `sing_cons` shared by all three source files. -/
def singConsL : List Char :=
  ['b', 'c', 'd', 'f', 'g', 'j', 'k', 'l', 'm', 'n', 'p', 'q', 'r', 's', 't', 'v', 'w', 'x', 'z']

/-- Alphabet table `doub_cons` shared by all three source files. -/
def doubConsL : List Char := ['x', 'z']

/-- Alphabet table `long_vowels` shared by all three source files. -/
def longVowelsL : List Char := ['ā', 'ē', 'ī', 'ō', 'ū']

/-- Alphabet table `diphthongs` shared by all three source files
(each two-character string becomes a two-element character list). -/
def diphthongsL : List (List Char) :=
  [['a', 'e'], ['a', 'u'], ['e', 'u'], ['e', 'i'], ['o', 'e'], ['u', 'i'], ['u', 'ī']]

/-- Alphabet table `stops` shared by all three source files. -/
def stopsL : List Char := ['t', 'p', 'd', 'k', 'b']

/-- Alphabet table `liquids` shared by all three source files. -/
def liquidsL : List Char := ['r', 'l']

/-- The punctuation string `punc` (`'#$%^&*()_+={}[]|:;"\'\/,<>~'` with a
backquote before the tilde); characters that are awkward as literals are
written with `Char.ofNat` (39 apostrophe, 92 backslash, 96 backquote,
123 and 125 braces). -/
def puncL : List Char :=
  ['#', '$', '%', Char.ofNat 94, '&', '*', '(', ')', '_', '+', '=',
   Char.ofNat 123, Char.ofNat 125, '[', ']', '|', ':', ';', '"',
   Char.ofNat 39, Char.ofNat 92, '/', ',', '<', '>', Char.ofNat 96, Char.ofNat 126]

/-- The digits string `numbers`. -/
def numbersL : List Char := ['1', '2', '3', '4', '5', '6', '7', '8', '9', '0']

/-- The praenomen abbreviation list `abrev` / `abbreviations`
(a list of strings; `Char.ofNat 39` is the apostrophe in `M'`). -/
def abrevL : List (List Char) :=
  [['A', 'g', 'r', '.'], ['A', 'p', '.'], ['A', '.'], ['K', '.'], ['D', '.'],
   ['F', '.'], ['C', '.'], ['C', 'n', '.'], ['L', '.'], ['M', 'a', 'm', '.'],
   ['M', Char.ofNat 39], ['M', '.'], ['N', '.'], ['O', 'c', 't', '.'],
   ['O', 'p', 'e', 't', '.'], ['P', 'o', 's', 't', '.'], ['P', 'r', 'o', '.'],
   ['P', '.'], ['Q', '.'], ['S', 'e', 'r', 't', '.'], ['S', 'e', 'r', '.'],
   ['S', 'e', 'x', '.'], ['S', '.'], ['S', 't', '.'], ['T', 'i', '.'],
   ['T', '.'], ['V', '.'], ['V', 'o', 'l', '.'], ['V', 'o', 'p', '.'],
   ['P', 'l', '.']]

/-- Whether `pat` occurs at the start of `l` (helper for Python's
substring test `pat in s`). -/
def startsWithSeq : List Char → List Char → Bool
  | [], _ => true
  | _ :: _, [] => false
  | p :: ps, c :: cs => p == c && startsWithSeq ps cs

/-- Python's substring containment test `pat in s` on strings. -/
def containsSeq (pat : List Char) : List Char → Bool
  | [] => pat.isEmpty
  | c :: cs => startsWithSeq pat (c :: cs) || containsSeq pat cs

/-- Python's `list.index(x)`: index of the first element equal to `x`.
When `x` is absent Python raises `ValueError`; every call site in the
sources passes an element taken from the list itself, so that case is
unreachable and is modelled by returning the list's length. -/
def indexOfFirst [DecidableEq α] (l : List α) (x : α) : Nat :=
  match l with
  | [] => 0
  | a :: as => if a = x then 0 else indexOfFirst as x + 1

/-- Concatenation of a list of lists (Python `''.join` /
the `syllables_sent += word` accumulation in `syllable_condenser`). -/
def concatAll : List (List α) → List α
  | [] => []
  | l :: ls => l ++ concatAll ls

/-- Sequential `Option`-valued map: a `none` (a raised exception in the
modelled Python) makes the whole traversal `none`. -/
def mapOpt (f : α → Option β) : List α → Option (List β)
  | [] => some []
  | a :: as =>
    match f a, mapOpt f as with
    | some b, some bs => some (b :: bs)
    | _, _ => none

/-- Python's `str.lower` restricted to the character repertoire the
program works with: ASCII letters and the five macron vowels. -/
def pyLower (c : Char) : Char :=
  if 'A' ≤ c ∧ c ≤ 'Z' then Char.ofNat (c.toNat + 32)
  else if c = 'Ā' then 'ā'
  else if c = 'Ē' then 'ē'
  else if c = 'Ī' then 'ī'
  else if c = 'Ō' then 'ō'
  else if c = 'Ū' then 'ū'
  else c

/-- Python's `text.split(" ")`: split on every single space,
keeping empty pieces. -/
def splitOnSpace : List Char → List (List Char)
  | [] => [[]]
  | c :: rest =>
    match splitOnSpace rest with
    | [] => [[c]]
    | w :: ws => if c = Char.ofNat 32 then [] :: w :: ws else (c :: w) :: ws

/-- One word step of `KirbyScanner.tokenize` / `scan_latin.tokenize`:
state is `(sent, tmp)`; a word passing the abbreviation, punctuation and
digit filters is lowercased and appended to `tmp`, and a word containing
a period flushes `tmp` as a finished sentence. -/
def tokenizeStep (st : List (List (List Char)) × List (List Char)) (word : List Char) :
    List (List (List Char)) × List (List Char) :=
  if word ∉ abrevL ∧ containsSeq word puncL = false ∧ containsSeq word numbersL = false then
    let tmp' := st.2 ++ [word.map pyLower]
    if containsSeq ['.'] word then (st.1 ++ [tmp'], []) else (st.1, tmp')
  else st

/-- `KirbyScanner.tokenize` (autoscan.py lines 41-57) and the textually
identical `tokenize` (scan_latin.py lines 53-69): words still buffered in
`tmp` when the input ends are discarded. -/
def tokenize (text : List Char) : List (List (List Char)) :=
  ((splitOnSpace text).foldl tokenizeStep ([], [])).1

/-- The slice `word[a:b]` of Python. -/
def sliceL (word : List Char) (a b : Nat) : List Char :=
  (word.drop a).take (b - a)

/-- The main scanning loop of `syllabify` (autoscan.py lines 78-87):
state `(syllStart, cur, sylls)`; at a diphthong the syllable is closed
after both characters, at a plain or long vowel after that character.
`cur` grows by one or two each iteration, so fuel `word.length` is
enough; the fuel-exhaustion case returns the same value as the loop
exit, making surplus fuel neutral. -/
def syllabLoop (word : List Char) : Nat → Nat → Nat → List (List Char) → List (List Char) × Nat
  | 0, syllStart, _cur, sylls => (sylls, syllStart)
  | fuel + 1, syllStart, cur, sylls =>
    if h : cur < word.length then
      let letter := word.get ⟨cur, h⟩
      match word[cur + 1]? with
      | some c2 =>
        if [letter, c2] ∈ diphthongsL then
          syllabLoop word fuel (cur + 2) (cur + 2) (sylls ++ [sliceL word syllStart (cur + 2)])
        else if letter ∈ vowelsL ∨ letter ∈ longVowelsL then
          syllabLoop word fuel (cur + 1) (cur + 1) (sylls ++ [sliceL word syllStart (cur + 1)])
        else
          syllabLoop word fuel syllStart (cur + 1) sylls
      | none =>
        if letter ∈ vowelsL ∨ letter ∈ longVowelsL then
          syllabLoop word fuel (cur + 1) (cur + 1) (sylls ++ [sliceL word syllStart (cur + 1)])
        else
          syllabLoop word fuel syllStart (cur + 1) sylls
    else (sylls, syllStart)

/-- The backward leftover-consonant loop of `syllabify` (autoscan.py
lines 89-94): walk down from the end of the word until the last vowel is
found, collecting the characters (periods excluded) into `acc`.  When
the character at index 0 still differs from the last vowel, Python's
negative indices take over and the loop misbehaves; that unreachable
situation is modelled as `none`. -/
def leftoversLoop (word : List Char) (lastVowel : Char) : Nat → List Char → Option (List Char)
  | cur, acc =>
    match word[cur]? with
    | none => none
    | some c =>
      if c = lastVowel then some acc
      else
        match cur with
        | 0 => none
        | cur' + 1 => leftoversLoop word lastVowel cur' (if c = '.' then acc else c :: acc)

/-- The per-word body of `KirbyScanner.syllabify` (autoscan.py lines
75-95), of `scan_latin.syllabify` and of `Scansion.make_syllables`,
which are textually identical: the main scan, then `syll_per_word[-1]`
(an `IndexError`, hence `none`, when no vowel was found), then the
leftover consonants appended to the last syllable. -/
def syllabifyWord (word : List Char) : Option (List (List Char)) :=
  match syllabLoop word word.length 0 0 [] with
  | (sylls, _) =>
    match sylls.getLast? with
    | none => none
    | some lastSyll =>
      match lastSyll.getLast? with
      | none => none
      | some lastVowel =>
        match leftoversLoop word lastVowel (word.length - 1) [] with
        | none => none
        | some leftovers => some (sylls.dropLast ++ [lastSyll ++ leftovers])

/-- `KirbyScanner.syllabify` (autoscan.py lines 60-98) applied to a whole
text: tokenize, then syllabify every word of every sentence.  An
uncaught `IndexError` in any word aborts the whole call (`none`). -/
def syllabify (text : List Char) : Option (List (List (List (List Char)))) :=
  mapOpt (fun sent => mapOpt syllabifyWord sent) (tokenize text)

/-- The per-word loop of `KirbyScanner.qu_fix` (autoscan.py lines
112-118) and of `Scansion.qu_fix`: Python's list iterator keeps its own
index `k` while the slice assignment shortens the list, so after a merge
the iterator moves past the merged syllable.  `word.index(syll)` is a
value search, so with duplicated syllables `j` may be smaller than `k`.
The merge joins the slice `word[j:j+2]` into a single syllable.  Each
iteration increases `k` by one and never lengthens the list, so fuel
`word.length` is enough, and exhausted fuel returns the loop-exit
value. -/
def quFixLoop : Nat → Nat → List (List Char) → List (List Char)
  | 0, _, word => word
  | fuel + 1, k, word =>
    match word[k]? with
    | none => word
    | some syll =>
      if containsSeq ['q', 'u'] syll then
        let j := indexOfFirst word syll
        quFixLoop fuel (k + 1)
          (word.take j ++ [concatAll ((word.drop j).take 2)] ++ word.drop (j + 2))
      else quFixLoop fuel (k + 1) word

/-- One word of `KirbyScanner.qu_fix` / `Scansion.qu_fix`. -/
def quFixWord (word : List (List Char)) : List (List Char) :=
  quFixLoop word.length 0 word

/-- `KirbyScanner.qu_fix` (autoscan.py lines 101-119) applied to a whole
text: syllabify, then run the merge loop on every word. -/
def quFixText (text : List Char) : Option (List (List (List (List Char)))) :=
  (syllabify text).map (List.map (List.map quFixWord))

/-- `KirbyScanner.elidable_end` (autoscan.py lines 122-142) and the
textually identical functions in the other two files.  `word[-1]` on an
empty word, and `word[-1][-2]` on a last syllable shorter than two
characters, raise `IndexError` (`none`); the final two-character test
reads `word[-1][-2] + word[-1][-1]`. -/
def elidableEnd (word : List (List Char)) : Option Bool :=
  match word.getLast? with
  | none => none
  | some last =>
    if last.getLast? = some 'm' then some true
    else
      match last.getLast? with
      | none => none
      | some lc =>
        if lc ∈ longVowelsL then some true
        else if lc ∈ vowelsL then some true
        else
          match last[last.length - 2]? with
          | none => none
          | some c2 =>
            if last.length < 2 then none
            else if [c2, lc] ∈ diphthongsL then some true
            else some false

/-- `KirbyScanner.elidable_begin` (autoscan.py lines 145-165) and the
textually identical functions in the other two files.  The diphthong
test reads `word[0][0] + word[0][-1]`: the first and the last character
of the first syllable. -/
def elidableBegin (word : List (List Char)) : Option Bool :=
  match word.head? with
  | none => none
  | some first =>
    if first.head? = some 'h' then some true
    else
      match first.head? with
      | none => none
      | some fc =>
        if fc ∈ longVowelsL then some true
        else if fc ∈ vowelsL then some true
        else
          match first.getLast? with
          | none => none
          | some lc0 =>
            if [fc, lc0] ∈ diphthongsL then some true
            else some false

/-- One position of the `elision_fixer` loop (autoscan.py lines
179-188).  `sent.index(word)` is a value search, so `j` is the first
position whose word equals the current one.  `none` models the `break`:
`IndexError` from `sent[j+1]` past the end, or from `elidable_end` /
`elidable_begin` on degenerate words.  A merge assigns the concatenation
to the next word's first syllable and then pops the current word's last
syllable; both updates go through the sentence state, which reproduces
Python's object aliasing when `j + 1 = i`. -/
def elisionStep (sent : List (List (List Char))) (i : Nat) : Option (List (List (List Char))) :=
  match sent[i]? with
  | none => none
  | some word =>
    let j := indexOfFirst sent word
    match sent[j + 1]? with
    | none => none
    | some nextWord =>
      match elidableEnd word with
      | none => none
      | some false => some sent
      | some true =>
        match elidableBegin nextWord with
        | none => none
        | some false => some sent
        | some true =>
          match word.getLast?, nextWord.head? with
          | some ws, some nf =>
            let sent1 := sent.set (j + 1) ((ws ++ nf) :: nextWord.tail)
            match sent1[i]? with
            | some w' => some (sent1.set i w'.dropLast)
            | none => none
          | _, _ => none

/-- The per-sentence loop of `elision_fixer`: Python iterates the word
positions of the (never-lengthening, never-shortening) sentence list;
`none` from a step is the `break`.  The sentence's length is fixed, so
fuel `sent.length` covers every position. -/
def elisionIter : Nat → Nat → List (List (List Char)) → List (List (List Char))
  | 0, _, sent => sent
  | fuel + 1, i, sent =>
    if i < sent.length then
      match elisionStep sent i with
      | none => sent
      | some sent' => elisionIter fuel (i + 1) sent'
    else sent

/-- `elision_fixer` restricted to one sentence (the body of the outer
loop of autoscan.py lines 178-188 / scan_latin_class.py lines 190-200). -/
def elisionFixSent (sent : List (List (List Char))) : List (List (List Char)) :=
  elisionIter sent.length 0 sent

/-- `KirbyScanner.elision_fixer` (autoscan.py lines 168-189) applied to
a whole text: qu_fix, then the per-sentence loop. -/
def elisionFixer (text : List Char) : Option (List (List (List (List Char)))) :=
  (quFixText text).map (List.map elisionFixSent)

/-- `KirbyScanner.syllable_condenser` (autoscan.py lines 192-208):
flatten each sentence's words into one syllable list. -/
def syllableCondenser (text : List Char) : Option (List (List (List Char))) :=
  (elisionFixer text).map (List.map concatAll)

/-- The character loop of `KirbyScanner.long_by_nature` (autoscan.py
lines 225-234): every non-single-consonant character is appended to the
vowel group, a long vowel returns `True` immediately, and after the loop
the accumulated group is tested against the diphthong list. -/
def lbnLoop : List Char → List Char → Bool
  | [], acc => decide (acc ∈ diphthongsL)
  | c :: rest, acc =>
    let acc' := if c ∈ singConsL then acc else acc ++ [c]
    if c ∈ longVowelsL then true else lbnLoop rest acc'

/-- `KirbyScanner.long_by_nature` (autoscan.py lines 215-234) and the
textually identical `scan_latin.long_by_nature`; Python's `None`
fall-through return is falsy, so the result is modelled as `Bool`. -/
def longByNature (syll : List Char) : Bool :=
  lbnLoop syll []

/-- The character loop of `Scansion.long_by_nature`
(scan_latin_class.py lines 230-238), which tests the long vowel before
extending the vowel group; same results as `lbnLoop`. -/
def lbnLoopC : List Char → List Char → Bool
  | [], acc => decide (acc ∈ diphthongsL)
  | c :: rest, acc =>
    if c ∈ longVowelsL then true
    else lbnLoopC rest (if c ∈ singConsL then acc else acc ++ [c])

/-- `Scansion.long_by_nature` (scan_latin_class.py lines 220-239). -/
def longByNatureC (syll : List Char) : Bool :=
  lbnLoopC syll []

/-- `KirbyScanner.long_by_position` (autoscan.py lines 237-261) and the
textually identical functions in the other two files.  All exits that
Python reaches through `pass` or a caught `IndexError` return `None`,
which is falsy, so the result is modelled as `Bool`.  The lookup
`sent[sent.index(syll) + 1]` is a value search; `next_syll[1]` inside
case 1 can itself raise `IndexError` when the next syllable is a single
character whose only character is a single consonant, which skips cases
2 and 3 (the `except` catches it). -/
def longByPosition (syll : List Char) (sent : List (List Char)) : Bool :=
  match sent[indexOfFirst sent syll + 1]? with
  | none => false
  | some next =>
    match next.head? with
    | none => false
    | some n0 =>
      if n0 ∈ singConsL then
        match next[1]? with
        | none => false
        | some n1 =>
          if n1 ∈ singConsL ∧ n0 ∉ stopsL ∧ n1 ∉ liquidsL then true
          else
            match syll.getLast? with
            | none => false
            | some sl =>
              if sl ∈ vowelsL ∧ n0 ∈ doubConsL then true
              else if sl ∈ singConsL ∧ n0 ∈ singConsL then true
              else false
      else
        match syll.getLast? with
        | none => false
        | some sl =>
          if sl ∈ vowelsL ∧ n0 ∈ doubConsL then true
          else if sl ∈ singConsL ∧ n0 ∈ singConsL then true
          else false

/-- The per-sentence loop of `KirbyScanner.scan` (autoscan.py lines
268-274): one glyph per syllable, `'–'` for long and `'˘'` for short. -/
def kirbyScanSent (sent : List (List Char)) : List Char :=
  sent.map (fun syll => if longByPosition syll sent || longByNature syll then '–' else '˘')

/-- The sentence loop of `KirbyScanner.scan` applied to an already
condensed text (the part of `scan` after `syllable_condenser`). -/
def kirbyScanSents (sents : List (List (List Char))) : List (List Char) :=
  sents.map kirbyScanSent

/-- `KirbyScanner.scan` (autoscan.py lines 263-275). -/
def kirbyScannerScan (text : List Char) : Option (List (List Char)) :=
  (syllableCondenser text).map kirbyScanSents

/-- The per-sentence loop of `scan_latin.scansion` (lines 399-406):
identical classification, rendered with `'-'` and `'u'`. -/
def scansionSent (sent : List (List Char)) : List Char :=
  sent.map (fun syll => if longByPosition syll sent || longByNature syll then '-' else 'u')

/-- `scan_latin.scansion` (scan_latin.py lines 389-407); its whole
pipeline (`tokenize`, `syllabify`, `qu_fix`, `elision_fixer`,
`syllable_condenser`, `long_by_nature`, `long_by_position`) is textually
identical to the `KirbyScanner` methods embedded above, so it reuses
`syllableCondenser`. -/
def scansion (text : List Char) : Option (List (List Char)) :=
  (syllableCondenser text).map (List.map scansionSent)

/-- The text `quo usque.` (`Char.ofNat 32` is the space). -/
def quoUsqueTxt : List Char :=
  ['q', 'u', 'o', Char.ofNat 32, 'u', 's', 'q', 'u', 'e', '.']

/-- The text `bab bab.`: one sentence whose two words syllabify to the
same single syllable `bab`. -/
def babBabTxt : List Char :=
  ['b', 'a', 'b', Char.ofNat 32, 'b', 'a', 'b', '.']

/-- The text `ta ba ta a.`: the word `ta` occurs at positions 0 and 2 of
the sentence, so the value search `sent.index(word)` resolves the word at
position 2 to position 0. -/
def taBaTaATxt : List Char :=
  ['t', 'a', Char.ofNat 32, 'b', 'a', Char.ofNat 32,
   't', 'a', Char.ofNat 32, 'a', '.']

/-- The text `bcd fa. ma ta.`: the first sentence contains the word
`bcd`, which has no vocalic nucleus. -/
def bcdTxt : List Char :=
  ['b', 'c', 'd', Char.ofNat 32, 'f', 'a', '.', Char.ofNat 32,
   'm', 'a', Char.ofNat 32, 't', 'a', '.']

/-- The text `ma ta.`: the part of `bcdTxt` after its malformed first
sentence. -/
def maTaTxt : List Char :=
  ['m', 'a', Char.ofNat 32, 't', 'a', '.']

/-- Glyph translation between the two renderings of the scansion: the
`KirbyScanner.scan` glyphs `–`/`˘` become the `scan_latin.scansion`
glyphs `-`/`u`. -/
def glyphSwap (c : Char) : Char :=
  if c = '–' then '-' else if c = '˘' then 'u' else c

/-- `Scansion.make_syllables` (scan_latin_class.py lines 77-116): the
per-word body is textually identical to the one in `syllabifyWord`;
unlike `KirbyScanner.syllabify` it receives an already tokenized text. -/
def makeSyllables (sents : List (List (List Char))) :
    Option (List (List (List (List Char)))) :=
  mapOpt (fun sent => mapOpt syllabifyWord sent) sents

/-- `Scansion.syllabify` (scan_latin_class.py lines 291-300):
`make_syllables`, then `qu_fix` (same loop as `quFixWord`, applied to
the given structure), then `elision_fixer` (same per-sentence loop as
`elisionFixSent`). -/
def scansionClassSyllabify (tokens : List (List (List Char))) :
    Option (List (List (List (List Char)))) :=
  (makeSyllables tokens).map
    (fun s => List.map elisionFixSent (s.map (List.map quFixWord)))

/-- `Scansion.syllable_condenser` (scan_latin_class.py lines 204-217). -/
def syllableCondenserC (s : List (List (List (List Char)))) : List (List (List Char)) :=
  s.map concatAll

/-- The per-sentence loop of `Scansion.scansion` (scan_latin_class.py
lines 272-288): glyphs `-`/`u`, with the class's `long_by_nature` and
the shared `long_by_position`. -/
def scansionSentC (sent : List (List Char)) : List Char :=
  sent.map (fun syll => if longByPosition syll sent || longByNatureC syll then '-' else 'u')

/-- `Scansion.scan_text` (scan_latin_class.py lines 302-307).  The
class's `tokenize` delegates to the external cltk/nltk tokenizers, so
the tokenizer is a parameter.  Line 303 reads `tokens =
self.tokenize(unscanned_text)`: the free name `unscanned_text` from the
enclosing scope, not the `input_string` parameter, which the body never
reads; `unscanned_text` is passed here explicitly as the scope state,
`none` standing for the unbound name (a `NameError`, which like the
other uncaught exceptions collapses to `none`). -/
def scanText (tokenizeExt : List Char → List (List (List Char)))
    (unscanned_text : Option (List Char)) (input_string : List Char) :
    Option (List (List Char)) :=
  match unscanned_text with
  | none => none
  | some g =>
    (scansionClassSyllabify (tokenizeExt g)).map
      (fun sylls => (syllableCondenserC sylls).map scansionSentC)

/-- The vowel group that `long_by_nature` accumulates over a whole
syllable: all non-single-consonant characters in order, joined across
any intervening consonants. -/
def vowelGroup (syll : List Char) : List Char :=
  syll.filter (fun c => decide (c ∉ singConsL))

/-- Vocalic character: the syllable-closing test of the syllabifier's
main loop (plain vowel or long vowel). -/
abbrev isVocalic (c : Char) : Prop := c ∈ vowelsL ∨ c ∈ longVowelsL

/-- Postcondition of the syllabifier's main loop, stated of the result
pair `(sylls, syllStart)`: the syllables concatenate to the prefix of
the word before the syllable start, the characters from the syllable
start on are non-vocalic, an empty result means the start never moved,
and a nonempty result ends with a syllable whose last character is the
vocalic character at the position just before the syllable start. -/
def LoopOK (word : List Char) (r : List (List Char) × Nat) : Prop :=
  concatAll r.1 = word.take r.2 ∧
  r.2 ≤ word.length ∧
  (∀ p (hp : p < word.length), r.2 ≤ p → ¬ isVocalic (word.get ⟨p, hp⟩)) ∧
  (r.1 = [] → r.2 = 0) ∧
  (∀ ls, r.1.getLast? = some ls →
      1 ≤ r.2 ∧ ∃ hp : r.2 - 1 < word.length,
        ls.getLast? = some (word.get ⟨r.2 - 1, hp⟩) ∧
        isVocalic (word.get ⟨r.2 - 1, hp⟩))

/-- The lowercase-letter alphabet of the tokenizer's output contract:
ASCII lowercase letters plus the five macron vowels. -/
def lowercaseLetters : List Char :=
  ['a', 'b', 'c', 'd', 'e', 'f', 'g', 'h', 'i', 'j', 'k', 'l', 'm',
   'n', 'o', 'p', 'q', 'r', 's', 't', 'u', 'v', 'w', 'x', 'y', 'z'] ++ longVowelsL

/-- C1: evaluation of the code at a failing input.  The next syllable
`sla` starts with the two single consonants `s` and `l`, and that pair
is not a stop followed by a liquid (`s` is not a stop), so by the claim
the preceding syllable `a` is long by position rule 1; but
`long_by_position` returns a falsy result, because the code demands
`next_syll[0] not in stops and next_syll[1] not in liquids` — the first
character must not be a stop AND the second must not be a liquid —
instead of excluding only the stop-followed-by-liquid pair. -/
theorem longByPosition_stop_liquid_code_eval :
    longByPosition ['a'] [['a'], ['s', 'l', 'a']] = false ∧
    's' ∈ singConsL ∧ 'l' ∈ singConsL ∧ ¬ ('s' ∈ stopsL ∧ 'l' ∈ liquidsL) := by
  decide

/-- C2 counterexample: the syllable `tamet` contains no long vowel and
no diphthong as a contiguous substring (so under the claim it is not
long by nature), yet `long_by_nature` returns true: the code's vowel
group joins the non-consonant characters `a` and `e` across the
intervening consonant `m` into `ae`, which is a recognized diphthong. -/
theorem longByNature_joined_group_cx :
    longByNature ['t', 'a', 'm', 'e', 't'] = true ∧
    (∀ c ∈ ['t', 'a', 'm', 'e', 't'], c ∉ longVowelsL) ∧
    (∀ d ∈ diphthongsL, containsSeq d ['t', 'a', 'm', 'e', 't'] = false) := by
  decide

/-- C3: evaluation of the code at a failing input.  In the sentence
`bab bab.` both syllables are the string `bab`; when the last syllable
is classified, `sent.index(syll)` finds the first occurrence, the
"next" syllable is the last syllable itself, and position rule 3 fires:
the sentence scans as two longs even though `bab` is not long by
nature, so the last syllable of a sentence is not always exempt from the
position rules. -/
theorem scan_last_syllable_position_code_eval :
    kirbyScannerScan babBabTxt = some [['–', '–']] ∧
    longByNature ['b', 'a', 'b'] = false := by
  decide

/-- C5 counterexample: for the sentence `quo usque.` the qu-normalized
syllabification is not `[["quo"], ["us", "que"]]` and the elision result
is not `[[], ["quous", "que"]]` as the claim states. -/
theorem elision_quo_usque_cx :
    quFixText quoUsqueTxt ≠
      some [[[['q', 'u', 'o']], [['u', 's'], ['q', 'u', 'e']]]] ∧
    elisionFixer quoUsqueTxt ≠
      some [[[], [['q', 'u', 'o', 'u', 's'], ['q', 'u', 'e']]]] := by
  decide

/-- C5 amended: the syllabifier closes every syllable at its nucleus, so
`usque` syllabifies as `u`, `squ`, `e` and qu-normalization merges `squ`
with `e`, giving `[["quo"], ["u", "sque"]]`; elision then prepends the
first word's last syllable `quo` onto the second word's first syllable
`u` (string concatenation, replacing it) and removes it from the first
word, leaving `[[], ["quou", "sque"]]` with the first word empty. -/
theorem elision_quo_usque_actual :
    quFixText quoUsqueTxt =
      some [[[['q', 'u', 'o']], [['u'], ['s', 'q', 'u', 'e']]]] ∧
    elisionFixer quoUsqueTxt =
      some [[[], [['q', 'u', 'o', 'u'], ['s', 'q', 'u', 'e']]]] := by
  decide

/-- C6: evaluation of the code at a failing input.  In the sentence
`ta ba ta a.` the word `ta` occurs at positions 0 and 2.  The word at
position 2 has an elidable end and its position-3 neighbor `a` has an
elidable begin, so a pass that compared each word with the word at the
immediately following position would merge them; but `elision_fixer`
leaves the sentence completely unchanged, because `sent.index(word)`
resolves the position-2 word to position 0 and compares it against `ba`
instead. -/
theorem elisionFixer_value_lookup_code_eval :
    elisionFixer taBaTaATxt =
      some [[[['t', 'a']], [['b', 'a']], [['t', 'a']], [['a']]]] ∧
    elidableEnd [['t', 'a']] = some true ∧
    elidableBegin [['a']] = some true := by
  decide

/-- C7: evaluation of the code at a failing input.  The word `bcd` of
the first sentence has no vocalic nucleus, so `syll_per_word[-1]` in
`syllabify` raises an uncaught `IndexError` and the whole run aborts
with no output at all (`none`), even though the second sentence
`ma ta.` on its own scans fine: the pipeline neither reports the
failing word nor continues with the remaining sentences. -/
theorem pipeline_nucleus_free_abort_code_eval :
    kirbyScannerScan bcdTxt = none ∧
    kirbyScannerScan maTaTxt = some [['˘', '˘']] := by
  decide

/-- C8: the sentence loop of `KirbyScanner.scan` emits exactly one
output element per condensed sentence, in order; each sentence's output
is exactly one glyph per syllable, produced positionally by the same
map, so a sentence with zero syllables yields the empty string; and
every emitted character is one of the two glyphs `–` and `˘`. -/
theorem kirbyScan_sent_contract (sents : List (List (List Char))) :
    (kirbyScanSents sents).length = sents.length ∧
    (∀ i : Nat, (kirbyScanSents sents)[i]? = (sents[i]?).map kirbyScanSent) ∧
    (∀ sent : List (List Char), (kirbyScanSent sent).length = sent.length) ∧
    kirbyScanSent [] = [] ∧
    (∀ out ∈ kirbyScanSents sents, ∀ c ∈ out, c = '–' ∨ c = '˘') := by
  refine ⟨List.length_map _ _, ?_, fun sent => List.length_map _ _, rfl, ?_⟩
  · intro i
    simp [kirbyScanSents]
  · intro out hout c hc
    rcases List.mem_map.mp hout with ⟨sent, _, rfl⟩
    rcases List.mem_map.mp hc with ⟨syll, _, rfl⟩
    cases longByPosition syll sent || longByNature syll <;> simp

/-- C9: on every input text the function pipeline `scan_latin.scansion`
returns exactly the `KirbyScanner.scan` result with each `–` replaced by
`-` and each `˘` by `u`: same sentence count, same length and the same
long/short classification at every position, differing only in the glyph
pair. -/
theorem scansion_refines_kirby (text : List Char) :
    scansion text = (kirbyScannerScan text).map (List.map (List.map glyphSwap)) := by
  unfold scansion kirbyScannerScan
  cases h : syllableCondenser text with
  | none => rfl
  | some sents =>
    simp only [Option.map_some']
    unfold kirbyScanSents
    rw [List.map_map]
    congr 1
    apply List.map_congr_left
    intro sent _
    unfold scansionSent kirbyScanSent
    rw [Function.comp_apply, List.map_map]
    apply List.map_congr_left
    intro syll _
    cases h2 : longByPosition syll sent || longByNature syll <;>
      simp only [Function.comp_apply, h2, if_true, if_false] <;> decide

/-- C10: `Scansion.scan_text` evaluates identically on any two input
strings: its body tokenizes the enclosing-scope name `unscanned_text`,
never its `input_string` parameter, so for every tokenizer and every
state of that name the result (or failure) is independent of the
argument. -/
theorem scanText_ignores_input (tokenizeExt : List Char → List (List (List Char)))
    (unscanned_text : Option (List Char)) (s1 s2 : List Char) :
    scanText tokenizeExt unscanned_text s1 = scanText tokenizeExt unscanned_text s2 := rfl

/-- Characterization of the `long_by_nature` character loop with an
arbitrary starting vowel group. -/
theorem lbnLoop_spec (s : List Char) : ∀ acc : List Char,
    lbnLoop s acc = true ↔
      (∃ c ∈ s, c ∈ longVowelsL) ∨ (acc ++ vowelGroup s) ∈ diphthongsL := by
  induction s with
  | nil =>
    intro acc
    simp [lbnLoop, vowelGroup]
  | cons c rest ih =>
    intro acc
    by_cases hlv : c ∈ longVowelsL
    · simp [lbnLoop, hlv]
    · by_cases hsc : c ∈ singConsL
      · have hvg : vowelGroup (c :: rest) = vowelGroup rest := by
          simp [vowelGroup, List.filter_cons, hsc]
        simp [lbnLoop, hlv, hsc, ih, hvg]
      · have hvg : vowelGroup (c :: rest) = c :: vowelGroup rest := by
          simp [vowelGroup, List.filter_cons, hsc]
        simp [lbnLoop, hlv, hsc, ih, hvg]

/-- C2 amended: `long_by_nature` returns true exactly when the syllable
contains a long-vowel character, or when the concatenation of all its
non-consonant characters in order — joined across any intervening
consonants, not a contiguous substring — equals a recognized
diphthong. -/
theorem longByNature_iff_amended (syll : List Char) :
    longByNature syll = true ↔
      (∃ c ∈ syll, c ∈ longVowelsL) ∨ vowelGroup syll ∈ diphthongsL := by
  simpa [longByNature] using lbnLoop_spec syll []

/-- Every character of every recognized diphthong is a plain or long
vowel. -/
theorem diphthong_chars_vocalic :
    ∀ d ∈ diphthongsL, ∀ c ∈ d, c ∈ vowelsL ∨ c ∈ longVowelsL := by
  decide

/-- `concatAll` distributes over append. -/
theorem concatAll_append (l1 l2 : List (List α)) :
    concatAll (l1 ++ l2) = concatAll l1 ++ concatAll l2 := by
  induction l1 with
  | nil => rfl
  | cons x xs ih => simp [concatAll, ih]

/-- `concatAll` of a list with one more chunk at the end. -/
theorem concatAll_snoc (l : List (List α)) (x : List α) :
    concatAll (l ++ [x]) = concatAll l ++ x := by
  rw [concatAll_append]
  simp [concatAll]

/-- Splitting `concatAll` at the last chunk. -/
theorem concatAll_dropLast (l : List (List α)) (x : List α)
    (h : l.getLast? = some x) :
    concatAll l = concatAll l.dropLast ++ x := by
  induction l with
  | nil => simp at h
  | cons a as ih =>
    cases as with
    | nil =>
      simp [List.getLast?] at h
      simp [concatAll, h]
    | cons b bs =>
      rw [List.getLast?_cons_cons] at h
      have h2 := ih h
      simp only [List.dropLast_cons₂, concatAll, List.append_assoc]
      exact congrArg (fun t => a ++ t) h2

/-- A prefix followed by the adjacent slice is the longer prefix. -/
theorem take_append_sliceL (word : List Char) {a b : Nat} (hab : a ≤ b) :
    word.take a ++ sliceL word a b = word.take b := by
  unfold sliceL
  rw [← List.take_add]
  congr 1
  omega

/-- Length of a slice that stays inside the word. -/
theorem sliceL_length (word : List Char) {a b : Nat} (hab : a ≤ b)
    (hb : b ≤ word.length) : (sliceL word a b).length = b - a := by
  unfold sliceL
  rw [List.length_take, List.length_drop]
  omega

/-- Last character of a nonempty slice that stays inside the word. -/
theorem sliceL_getLast (word : List Char) {a b : Nat} (hab : a < b)
    (hb : b ≤ word.length) :
    (sliceL word a b).getLast? = some (word.get ⟨b - 1, by omega⟩) := by
  have hlen : (sliceL word a b).length = b - a := sliceL_length word (by omega) hb
  rw [List.getLast?_eq_getElem?, hlen]
  unfold sliceL
  rw [List.getElem?_take_of_lt (by omega), List.getElem?_drop]
  have : a + (b - a - 1) = b - 1 := by omega
  rw [this, List.getElem?_eq_getElem (by omega)]
  rfl

/-- Extending a slice by one character on the right. -/
theorem sliceL_snoc (word : List Char) {a b : Nat} (hab : a ≤ b)
    (hb : b < word.length) :
    sliceL word a (b + 1) = sliceL word a b ++ [word.get ⟨b, hb⟩] := by
  unfold sliceL
  have h1 : b + 1 - a = (b - a) + 1 := by omega
  rw [h1, List.take_succ, List.getElem?_drop]
  have h2 : a + (b - a) = b := by omega
  rw [h2, List.getElem?_eq_getElem hb]
  rfl

/-- A slice reaching the end of the word is a drop. -/
theorem sliceL_to_length (word : List Char) (a : Nat) :
    sliceL word a word.length = word.drop a := by
  unfold sliceL
  rw [← List.length_drop a word]
  exact List.take_length _

/-- Invariant of the syllabifier's main loop: the loop-entry facts about
the accumulator, syllable start and cursor propagate to `LoopOK` of the
loop's result. -/
theorem syllabLoop_invariant (word : List Char) :
    ∀ (fuel syllStart cur : Nat) (sylls : List (List Char)),
    word.length ≤ fuel + cur →
    syllStart ≤ cur →
    syllStart ≤ word.length →
    concatAll sylls = word.take syllStart →
    (∀ p (hp : p < word.length), syllStart ≤ p → p < cur →
        ¬ isVocalic (word.get ⟨p, hp⟩)) →
    (sylls = [] → syllStart = 0) →
    (∀ ls, sylls.getLast? = some ls →
        1 ≤ syllStart ∧ ∃ hp : syllStart - 1 < word.length,
          ls.getLast? = some (word.get ⟨syllStart - 1, hp⟩) ∧
          isVocalic (word.get ⟨syllStart - 1, hp⟩)) →
    LoopOK word (syllabLoop word fuel syllStart cur sylls) := by
  intro fuel
  induction fuel with
  | zero =>
    intro syllStart cur sylls hfuel hsc hslen hconcat hscan hemp hlast
    simp only [syllabLoop]
    exact ⟨hconcat, hslen, fun p hp hps => hscan p hp hps (by omega), hemp, hlast⟩
  | succ fuel ih =>
    intro syllStart cur sylls hfuel hsc hslen hconcat hscan hemp hlast
    by_cases hcur : cur < word.length
    · rw [syllabLoop, dif_pos hcur]
      cases hc2 : word[cur + 1]? with
      | some c2 =>
        have hc2lt : cur + 1 < word.length := (List.getElem?_eq_some.mp hc2).1
        have hc2get : word.get ⟨cur + 1, hc2lt⟩ = c2 := by
          have := List.getElem?_eq_getElem hc2lt
          rw [hc2] at this
          exact (Option.some.injEq _ _ ▸ this.symm)
        simp only []
        by_cases hd : [word.get ⟨cur, hcur⟩, c2] ∈ diphthongsL
        · rw [if_pos hd]
          apply ih (cur + 2) (cur + 2) (sylls ++ [sliceL word syllStart (cur + 2)])
          · omega
          · omega
          · omega
          · rw [concatAll_snoc, hconcat, take_append_sliceL word (by omega)]
          · intro p hp h1 h2
            omega
          · intro hh
            simp at hh
          · intro ls hl
            rw [List.getLast?_concat] at hl
            injection hl with hl
            subst hl
            refine ⟨by omega, ⟨by omega, ?_, ?_⟩⟩
            · rw [sliceL_getLast word (by omega) (by omega)]
            · have h21 : cur + 2 - 1 = cur + 1 := by omega
              simp only [h21, hc2get]
              exact diphthong_chars_vocalic _ hd c2 (by simp)
        · rw [if_neg hd]
          by_cases hv : isVocalic (word.get ⟨cur, hcur⟩)
          · rw [if_pos hv]
            apply ih (cur + 1) (cur + 1) (sylls ++ [sliceL word syllStart (cur + 1)])
            · omega
            · omega
            · omega
            · rw [concatAll_snoc, hconcat, take_append_sliceL word (by omega)]
            · intro p hp h1 h2
              omega
            · intro hh
              simp at hh
            · intro ls hl
              rw [List.getLast?_concat] at hl
              injection hl with hl
              subst hl
              refine ⟨by omega, ⟨by omega, ?_, ?_⟩⟩
              · rw [sliceL_getLast word (by omega) (by omega)]
              · have h11 : cur + 1 - 1 = cur := by omega
                simp only [h11]
                exact hv
          · rw [if_neg hv]
            apply ih syllStart (cur + 1) sylls
            · omega
            · omega
            · exact hslen
            · exact hconcat
            · intro p hp h1 h2
              by_cases hpc : p < cur
              · exact hscan p hp h1 hpc
              · have hpe : p = cur := by omega
                subst hpe
                exact hv
            · exact hemp
            · exact hlast
      | none =>
        simp only []
        by_cases hv : isVocalic (word.get ⟨cur, hcur⟩)
        · rw [if_pos hv]
          apply ih (cur + 1) (cur + 1) (sylls ++ [sliceL word syllStart (cur + 1)])
          · omega
          · omega
          · omega
          · rw [concatAll_snoc, hconcat, take_append_sliceL word (by omega)]
          · intro p hp h1 h2
            omega
          · intro hh
            simp at hh
          · intro ls hl
            rw [List.getLast?_concat] at hl
            injection hl with hl
            subst hl
            refine ⟨by omega, ⟨by omega, ?_, ?_⟩⟩
            · rw [sliceL_getLast word (by omega) (by omega)]
            · have h11 : cur + 1 - 1 = cur := by omega
              simp only [h11]
              exact hv
        · rw [if_neg hv]
          apply ih syllStart (cur + 1) sylls
          · omega
          · omega
          · exact hslen
          · exact hconcat
          · intro p hp h1 h2
            by_cases hpc : p < cur
            · exact hscan p hp h1 hpc
            · have hpe : p = cur := by omega
              subst hpe
              exact hv
          · exact hemp
          · exact hlast
    · rw [syllabLoop, dif_neg hcur]
      exact ⟨hconcat, hslen, fun p hp hps => hscan p hp hps (by omega), hemp, hlast⟩

/-- No lowercase letter is a period. -/
theorem lowercase_not_period : ∀ c ∈ lowercaseLetters, c ≠ '.' := by
  decide

/-- The backward leftover loop collects exactly the characters from the
syllable start through the cursor, in order, when every character from
the syllable start on is non-vocalic (hence differs from the last
vowel, which is vocalic) and the character just before the syllable
start is the last vowel. -/
theorem leftoversLoop_spec (word : List Char) (lv : Char) (st : Nat)
    (hst1 : 1 <= st) (hstlen : st <= word.length)
    (hlvget : ∃ h : st - 1 < word.length, word.get ⟨st - 1, h⟩ = lv)
    (hlvV : isVocalic lv)
    (htrail : ∀ p (hp : p < word.length), st <= p → ¬ isVocalic (word.get ⟨p, hp⟩))
    (hdot : ∀ p (hp : p < word.length), st <= p → word.get ⟨p, hp⟩ ≠ '.') :
    ∀ d, st - 1 + d < word.length → ∀ acc,
      leftoversLoop word lv (st - 1 + d) acc = some (sliceL word st (st + d) ++ acc) := by
  intro d
  induction d with
  | zero =>
    intro hlt acc
    obtain ⟨h0, hlv0⟩ := hlvget
    rw [leftoversLoop]
    rw [show st - 1 + 0 = st - 1 from rfl]
    rw [List.getElem?_eq_getElem h0]
    simp only []
    have hg : word[st - 1] = lv := hlv0
    rw [hg, if_pos rfl]
    have hsl : sliceL word st (st + 0) = [] := by
      unfold sliceL
      simp
    rw [hsl]
    rfl
  | succ d ih =>
    intro hlt acc
    have hcur : st - 1 + (d + 1) = st + d := by omega
    have hsdlt : st + d < word.length := by omega
    have hnotV : ¬ isVocalic (word.get ⟨st + d, hsdlt⟩) :=
      htrail (st + d) hsdlt (by omega)
    have hne : word[st + d] ≠ lv := by
      intro he
      apply hnotV
      have hgv : word.get ⟨st + d, hsdlt⟩ = lv := he
      rw [hgv]
      exact hlvV
    have hnedot : word[st + d] ≠ '.' := hdot (st + d) hsdlt (by omega)
    rw [hcur, leftoversLoop, List.getElem?_eq_getElem hsdlt]
    simp only []
    rw [if_neg hne, if_neg hnedot]
    have hsucc : st + d = (st - 1 + d) + 1 := by omega
    have hbr : (match st + d with
        | 0 => none
        | cur' + 1 => leftoversLoop word lv cur' (word[st + d] :: acc)) =
        leftoversLoop word lv (st - 1 + d) (word[st + d] :: acc) := by
      generalize word[st + d] :: acc = acc2
      rw [hsucc]
    rw [hbr]
    rw [ih (by omega) (word[st + d] :: acc)]
    have hsnoc : sliceL word st (st + d + 1) =
        sliceL word st (st + d) ++ [word.get ⟨st + d, hsdlt⟩] :=
      sliceL_snoc word (by omega) hsdlt
    rw [show st + (d + 1) = st + d + 1 from by omega, hsnoc]
    simp

/-- C4: on a word made of lowercase letters that contains at least one
vowel, long-vowel or diphthong character, the syllabifier succeeds,
produces at least one syllable, and the concatenation of the produced
syllables in order is the original word. -/
theorem syllabifyWord_reconstructs (word : List Char)
    (hletters : ∀ c ∈ word, c ∈ lowercaseLetters)
    (hnuc : ∃ c ∈ word, c ∈ vowelsL ∨ c ∈ longVowelsL ∨ ∃ d ∈ diphthongsL, c ∈ d) :
    ∃ sylls, syllabifyWord word = some sylls ∧ sylls ≠ [] ∧ concatAll sylls = word := by
  have hV : ∃ c ∈ word, isVocalic c := by
    obtain ⟨c, hcw, hc⟩ := hnuc
    refine ⟨c, hcw, ?_⟩
    rcases hc with h | h | ⟨d, hd, hcd⟩
    · exact Or.inl h
    · exact Or.inr h
    · exact diphthong_chars_vocalic d hd c hcd
  obtain ⟨c, hcw, hcV⟩ := hV
  obtain ⟨⟨p, hp⟩, hpc⟩ := List.mem_iff_get.mp hcw
  have hpV : isVocalic (word.get ⟨p, hp⟩) := by
    rw [hpc]
    exact hcV
  have INV := syllabLoop_invariant word word.length 0 0 [] (by omega) (by omega)
    (by omega) rfl (fun p' hp' h1 h2 => absurd h2 (by omega)) (fun _ => rfl)
    (fun ls hls => by simp at hls)
  rcases hsl : syllabLoop word word.length 0 0 [] with ⟨sylls, st⟩
  rw [hsl] at INV
  unfold LoopOK at INV
  obtain ⟨hc1, hcle, hc3, hc4, hc5⟩ := INV
  have hc1' : concatAll sylls = word.take st := hc1
  have hcle' : st ≤ word.length := hcle
  have hc3' : ∀ q (hq : q < word.length), st ≤ q → ¬ isVocalic (word.get ⟨q, hq⟩) := hc3
  have hne : sylls ≠ [] := by
    intro he
    have h0 : st = 0 := hc4 he
    exact hc3' p hp (by omega) hpV
  cases hgl : sylls.getLast? with
  | none => exact absurd (List.getLast?_eq_none_iff.mp hgl) hne
  | some ls =>
    obtain ⟨hst1, hstm1, hlsl, hlsV⟩ := hc5 ls hgl
    have hdot' : ∀ q (hq : q < word.length), st ≤ q → word.get ⟨q, hq⟩ ≠ '.' := by
      intro q hq _
      exact lowercase_not_period _ (hletters _ (List.get_mem word q hq))
    have hlefto := leftoversLoop_spec word (word.get ⟨st - 1, hstm1⟩) st hst1 hcle'
      ⟨hstm1, rfl⟩ hlsV hc3' hdot' (word.length - st) (by omega) []
    have hidx : word.length - 1 = st - 1 + (word.length - st) := by omega
    have hsliceq : st + (word.length - st) = word.length := by omega
    have hslice : sliceL word st (st + (word.length - st)) ++ ([] : List Char) =
        word.drop st := by
      rw [List.append_nil, hsliceq, sliceL_to_length]
    unfold syllabifyWord
    rw [hsl]
    simp only []
    rw [hgl]
    simp only []
    rw [hlsl]
    simp only []
    rw [hidx, hlefto, hslice]
    refine ⟨_, rfl, by simp, ?_⟩
    rw [concatAll_snoc, ← List.append_assoc, ← concatAll_dropLast sylls ls hgl, hc1']
    exact List.take_append_drop st word

/-- C4 witness: the word `arma` satisfies the hypotheses and
reconstructs. -/
theorem syllabifyWord_reconstructs_witness :
    (∀ c ∈ (['a', 'r', 'm', 'a'] : List Char), c ∈ lowercaseLetters) ∧
    (∃ c ∈ (['a', 'r', 'm', 'a'] : List Char),
        c ∈ vowelsL ∨ c ∈ longVowelsL ∨ ∃ d ∈ diphthongsL, c ∈ d) ∧
    ∃ sylls, syllabifyWord ['a', 'r', 'm', 'a'] = some sylls ∧ sylls ≠ [] ∧
      concatAll sylls = ['a', 'r', 'm', 'a'] :=
  ⟨by decide, by decide,
    syllabifyWord_reconstructs ['a', 'r', 'm', 'a'] (by decide) (by decide)⟩
